import Mathlib

/-!
ElasticsearchSearchProvider: a shallow embedding of
`platform/features/search/src/providers/ElasticsearchSearchProvider.js`.

Modelling conventions.

* A JavaScript string is the list of its code units, `JStr := List Char`.
  The source only searches for ASCII substrings, splits on the space
  character and removes single space characters at either end, so no
  operation is sensitive to how non-ASCII text is cut into code units.
* `undefined` is `none`.
* Numbers the source counts with (`currentResultIndex`, `maxResults`,
  `timeout`, lengths) are integers, `Int`; the range in which a JavaScript
  number stops being exact is not reached by one increment at a time.
* A plain object used as a map (`scores`, the lookup result) is a function
  from keys to optional values.
* The provider's two closure variables `latestSearchResults` and
  `currentResultIndex` form the explicit state `Provider`.
* Promise callbacks run strictly after the code that registered them has
  run to completion; a search is therefore two handlers executed one after
  the other, `onHttpResponse` and `processResultsDone`.
-/

namespace ElasticsearchSearchProvider

/-- A JavaScript string, as the list of its code units. -/
abbrev JStr := List Char

/-- The space character `' '`. -/
def space : Char := Char.ofNat 32

/-- The double-quote character. -/
def dquote : Char := Char.ofNat 34

/-- The tilde character `'~'`, the fuzziness operator. -/
def tilde : Char := Char.ofNat 126

/-! ## String primitives used by the source -/

/-- `s.includes(pat)`: does `pat` occur as a contiguous run of `s`. -/
def includes : JStr → JStr → Bool
  | [], pat => pat.isPrefixOf []
  | c :: cs, pat => pat.isPrefixOf (c :: cs) || includes cs pat

/-- `s.substr(start, len)`: a negative `start` counts from the end, and the
result is cut at the end of the string. -/
def substr (s : JStr) (start len : Int) : JStr :=
  let size : Int := s.length
  let st : Int := if start < 0 then max (size + start) 0 else min start size
  (s.drop st.toNat).take len.toNat

/-- `s.substring(a, b)`: both indices are clamped to `[0, s.length]` and
swapped when `a > b`. -/
def substring (s : JStr) (a b : Int) : JStr :=
  let size : Int := s.length
  let a1 : Int := min (max a 0) size
  let b1 : Int := min (max b 0) size
  let lo : Int := min a1 b1
  let hi : Int := max a1 b1
  (s.drop lo.toNat).take (hi - lo).toNat

/-- `s.split(sep)` for a one-character separator: the pieces between the
occurrences of `sep`; the empty string splits into one empty piece. -/
def split (sep : Char) : JStr → List JStr
  | [] => [[]]
  | c :: cs =>
    if c = sep then [] :: split sep cs
    else
      match split sep cs with
      | [] => [[c]]
      | t :: ts => (c :: t) :: ts

/-- `pieces.join(sep)`. -/
def join (sep : JStr) : List JStr → JStr
  | [] => []
  | [t] => t
  | t :: u :: ts => t ++ sep ++ join sep (u :: ts)

/-! ## Term processing -/

/-- `isDefaultFormat(searchTerm)`, source lines 55-62. -/
def isDefaultFormat (searchTerm : JStr) : Bool :=
  if includes searchTerm "name:".toList || includes searchTerm "type:".toList then
    false
  else
    true

/-- `addFuzziness(searchTerm, editDistance)`, source lines 65-77. A missing
(or empty) `editDistance` becomes the empty string. -/
def addFuzziness (searchTerm : JStr) (editDistance : Option JStr) : JStr :=
  let editDistance : JStr :=
    match editDistance with
    | none => []
    | some [] => []
    | some d => d
  join [space] ((split space searchTerm).map (fun s =>
    if includes s [dquote] then s else s ++ [tilde] ++ editDistance))

/-- The first loop of `processSearchTerm`, source lines 82-84:
`while (s.substr(0, 1) === ' ') s = s.substring(1, s.length)`. -/
def shaveFront (s : JStr) : JStr :=
  if substr s 0 1 = [space] then shaveFront (substring s 1 (s.length : Nat)) else s
termination_by s.length
decreasing_by
  rename_i h
  cases s with
  | nil => simp [substr] at h
  | cons c t =>
    simp only [substring, List.length_cons]
    have h1 : min (min (max (1 : Int) 0) ((t.length + 1 : Nat) : Int))
        (min (max ((t.length + 1 : Nat) : Int) 0) ((t.length + 1 : Nat) : Int)) = 1 := by
      omega
    have h2 : max (min (max (1 : Int) 0) ((t.length + 1 : Nat) : Int))
        (min (max ((t.length + 1 : Nat) : Int) 0) ((t.length + 1 : Nat) : Int))
          = ((t.length + 1 : Nat) : Int) := by
      omega
    rw [h1, h2]
    simp

/-- The second loop of `processSearchTerm`, source lines 85-87:
`while (s.substr(s.length - 1, 1) === ' ') s = s.substring(0, s.length - 1)`. -/
def shaveBack (s : JStr) : JStr :=
  if substr s ((s.length : Int) - 1) 1 = [space] then
    shaveBack (substring s 0 ((s.length : Int) - 1))
  else s
termination_by s.length
decreasing_by
  rename_i h
  cases s with
  | nil => simp [substr] at h
  | cons c t =>
    simp only [substring, List.length_cons]
    have h1 : min (min (max (0 : Int) 0) ((t.length + 1 : Nat) : Int))
        (min (max (((t.length + 1 : Nat) : Int) - 1) 0) ((t.length + 1 : Nat) : Int)) = 0 := by
      omega
    have h2 : max (min (max (0 : Int) 0) ((t.length + 1 : Nat) : Int))
        (min (max (((t.length + 1 : Nat) : Int) - 1) 0) ((t.length + 1 : Nat) : Int))
          = (t.length : Int) := by
      omega
    rw [h1, h2]
    simp

/-- `processSearchTerm(searchTerm)`, source lines 80-99. -/
def processSearchTerm (searchTerm : JStr) : JStr :=
  let searchTerm := shaveFront searchTerm
  let searchTerm := shaveBack searchTerm
  if isDefaultFormat searchTerm then
    let searchTerm := addFuzziness searchTerm none
    "name:".toList ++ searchTerm
  else
    searchTerm

/-- The two loops together: the term without its leading and trailing spaces. -/
def trimSpaces (s : JStr) : JStr :=
  (s.dropWhile (fun c => decide (c = space))).rdropWhile (fun c => decide (c = space))

/-! ## Cursor and result state -/

/-- A relevance score. The source stores and copies scores and never
computes with them. -/
abbrev Score := Int

/-- One hit record of the response: `results[i][ID]` and `results[i][SCORE]`. -/
structure Hit where
  id : JStr
  score : Score
  deriving DecidableEq, Repr

/-- The part of the response the source reads: `rawResults.data.hits.total`
and `rawResults.data.hits.hits`. -/
structure RawResults where
  total : Int
  hits : List Hit
  deriving DecidableEq, Repr

/-- An entry of the mapping returned by `objectService.getObjects`. `ref`
stands for the identity of the object; `getModel` is `none` when the entry
has no `getModel` property and `some m` when calling it returns `m`. -/
structure DomainObject (M : Type) where
  ref : Nat
  getModel : Option M
  deriving DecidableEq, Repr

/-- The cursor operations a result record can refer to (its `next` field). -/
inductive CursorOp where
  | next
  deriving DecidableEq, Repr

/-- A `searchResult` object as pushed at source lines 159-164. `score` is the
value read from `scores[id]`. -/
structure SearchResult (M : Type) where
  id : JStr
  object : DomainObject M
  score : Option Score
  next : CursorOp
  deriving DecidableEq, Repr

/-- The closure variables of the provider, source lines 51-52. -/
structure Provider (M : Type) where
  latestSearchResults : List (SearchResult M)
  currentResultIndex : Int
  deriving DecidableEq, Repr

/-- The state right after construction: `latestSearchResults = []`,
`currentResultIndex = 0`. -/
def Provider.init {M : Type} : Provider M :=
  { latestSearchResults := [], currentResultIndex := 0 }

/-- An array read `a[i]`: `undefined` outside `0 .. a.length - 1`. -/
def arrayGet {α : Type} (a : List α) (i : Int) : Option α :=
  if i < 0 then none else a[i.toNat]?

/-- `next()`, source lines 102-114: the returned value and the new state. -/
def next {M : Type} (p : Provider M) : Option (SearchResult M) × Provider M :=
  let p := { p with currentResultIndex := p.currentResultIndex + 1 }
  if p.currentResultIndex > (p.latestSearchResults.length : Int) then
    (none, p)
  else
    (arrayGet p.latestSearchResults p.currentResultIndex, p)

/-- `first()`, source lines 116-121. -/
def first {M : Type} (p : Provider M) : Option (SearchResult M) × Provider M :=
  let p := { p with currentResultIndex := -1 }
  let n := next p
  n

/-! ## Result processing -/

/-- What a handler can throw. -/
inductive JsError where
  | typeError
  deriving DecidableEq, Repr

/-- The `scores` object filled by the loop at source lines 143-145:
`scores[ids[i]] = results[i][SCORE]` for `i = 0, 1, ...`; a later write to
the same key replaces the earlier one. -/
def buildScores : List Hit → (JStr → Option Score) → (JStr → Option Score)
  | [], scores => scores
  | h :: hs, scores => buildScores hs (fun k => if k = h.id then some h.score else scores k)

/-- What `processResults` has computed when it hands its callback to
`objectService.getObjects(ids).then`, source lines 126-148. `notice` records
whether the message of line 134 was logged. -/
structure Lookup (M : Type) where
  ids : List JStr
  scores : JStr → Option Score
  validType : M → Bool
  notice : Bool

/-- The synchronous part of `processResults(rawResults, validType)`, source
lines 126-148. -/
def processResultsStart {M : Type} (rawResults : RawResults) (validType : M → Bool) :
    Lookup M :=
  let results := rawResults.hits
  let resultsLength : Int := results.length
  { ids := results.map (fun r => r.id)
    scores := buildScores results (fun _ => none)
    validType := validType
    notice := decide (rawResults.total > resultsLength) }

/-- The loop of source lines 151-167 over `ids[j]`, `j = 0, 1, ...`, pushing
onto `searchResults`. Reading `.getModel` of a missing entry throws. -/
def filterLoop {M : Type} (objects : JStr → Option (DomainObject M)) (l : Lookup M) :
    List JStr → List (SearchResult M) → Except JsError (List (SearchResult M))
  | [], searchResults => .ok searchResults
  | id :: rest, searchResults =>
    match objects id with
    | none => .error JsError.typeError
    | some o =>
      match o.getModel with
      | none => filterLoop objects l rest searchResults
      | some m =>
        if l.validType m then
          filterLoop objects l rest
            (searchResults ++ [{ id := id, object := o, score := l.scores id, next := CursorOp.next }])
        else
          filterLoop objects l rest searchResults

/-- The callback of source lines 148-172, run when the lookup delivers
`objects`: the value its promise settles to and the new state. When the
loop throws, line 170 is not reached and the state is unchanged. -/
def processResultsDone {M : Type} (p : Provider M) (l : Lookup M)
    (objects : JStr → Option (DomainObject M)) :
    Except JsError (List (SearchResult M)) × Provider M :=
  match filterLoop objects l l.ids [] with
  | .error e => (.error e, p)
  | .ok searchResults => (.ok searchResults, { p with latestSearchResults := searchResults })

/-- The whole of `processResults(rawResults, validType)` for a lookup that
delivers `objects`: the sequence its promise resolves to. -/
def processResults {M : Type} (rawResults : RawResults) (validType : M → Bool)
    (objects : JStr → Option (DomainObject M)) : Except JsError (List (SearchResult M)) :=
  let l := processResultsStart rawResults validType
  filterLoop objects l l.ids []

/-! ## The query -/

/-- The default result cap, source line 36. -/
def DEFAULT_MAX_RESULTS : Int := 100

/-- The decimal text of an integer, as string concatenation renders it. -/
def numberToString (n : Int) : JStr := (toString n).toList

/-- The value of `maxResults` after source lines 203-206: a falsy argument
(absent, or the number zero) is replaced by the default. -/
def effectiveMaxResults (maxResults : Option Int) : Int :=
  match maxResults with
  | none => DEFAULT_MAX_RESULTS
  | some n => if n = 0 then DEFAULT_MAX_RESULTS else n

/-- The request URL `esQuery` built at source lines 203-218 from the text of
the input element. -/
def esQuery (ROOT : JStr) (inputValue : JStr) (maxResults timeout : Option Int) : JStr :=
  let maxResults := effectiveMaxResults maxResults
  let searchTerm := processSearchTerm inputValue
  let esQuery := ROOT ++ "/_search/?q=".toList ++ searchTerm ++ "&size=".toList
    ++ numberToString maxResults
  match timeout with
  | none => esQuery
  | some t => if t = 0 then esQuery else esQuery ++ "&timeout=".toList ++ numberToString t

/-- The callback of source lines 224-231, run when the HTTP response
arrives: `processResults` is started (its promise is dropped), then
`first()` is called and its value returned. -/
def onHttpResponse {M : Type} (p : Provider M) (rawResults : RawResults)
    (validType : M → Bool) : Option (SearchResult M) × Provider M × Lookup M :=
  let l := processResultsStart rawResults validType
  let f := first p
  (f.1, f.2, l)

/-- One search run to completion with no other call in between: the HTTP
response handler, then the lookup callback. Returns the value the promise
of `query` resolves to and the final state. -/
def search {M : Type} (p : Provider M) (rawResults : RawResults) (validType : M → Bool)
    (objects : JStr → Option (DomainObject M)) : Option (SearchResult M) × Provider M :=
  let r := onHttpResponse p rawResults validType
  (r.1, (processResultsDone r.2.1 r.2.2 objects).2)

/-- The calls a client can make on the cursor. -/
inductive Call where
  | first
  | next
  deriving DecidableEq, Repr

/-- Perform one cursor call. -/
def runCall {M : Type} : Call → Provider M → Option (SearchResult M) × Provider M
  | Call.first, p => first p
  | Call.next, p => next p

/-- Perform a sequence of cursor calls, collecting the returned values. -/
def runCalls {M : Type} : List Call → Provider M → List (Option (SearchResult M)) × Provider M
  | [], p => ([], p)
  | c :: cs, p =>
    let r := runCall c p
    let rs := runCalls cs r.2
    (r.1 :: rs.1, rs.2)

/-- The states the provider can be in: the initial one, and those reached by
a cursor call, by the HTTP response handler of a search, or by the lookup
callback of a search. -/
inductive Reachable {M : Type} : Provider M → Prop where
  | init : Reachable Provider.init
  | afterFirst {p : Provider M} : Reachable p → Reachable (first p).2
  | afterNext {p : Provider M} : Reachable p → Reachable (next p).2
  | httpResponse {p : Provider M} (rawResults : RawResults) (validType : M → Bool) :
      Reachable p → Reachable (onHttpResponse p rawResults validType).2.1
  | objectsResolved {p : Provider M} (l : Lookup M)
      (objects : JStr → Option (DomainObject M)) :
      Reachable p → Reachable (processResultsDone p l objects).2

/-! ## Reference definitions for the cursor test and the trimming loops -/

/-- The cursor step with the test "exhausted when position ≥ length" in
place of the strict test of source line 108; everything else as `next`. -/
def nextClean {M : Type} (p : Provider M) : Option (SearchResult M) × Provider M :=
  let p := { p with currentResultIndex := p.currentResultIndex + 1 }
  if p.currentResultIndex ≥ (p.latestSearchResults.length : Int) then
    (none, p)
  else
    (arrayGet p.latestSearchResults p.currentResultIndex, p)

/-- The first loop of `processSearchTerm` run with a bound on the number of
times its condition is evaluated: `none` when the bound is used up before the
loop has ended. -/
def loopFront : Nat → JStr → Option JStr
  | 0, _ => none
  | fuel + 1, s =>
    if substr s 0 1 = [space] then loopFront fuel (substring s 1 (s.length : Nat))
    else some s

/-- The second loop of `processSearchTerm` run with a bound on the number of
times its condition is evaluated. -/
def loopBack : Nat → JStr → Option JStr
  | 0, _ => none
  | fuel + 1, s =>
    if substr s ((s.length : Int) - 1) 1 = [space] then
      loopBack fuel (substring s 0 ((s.length : Int) - 1))
    else some s

/-- The function mapped over the pieces at source lines 70-76 when
`editDistance` is absent: a piece with a double quote is returned as it is,
any other piece gets `~` appended. -/
def markToken (s : JStr) : JStr :=
  if includes s [dquote] then s else s ++ [tilde]

/-- The score of the last hit record that carries the identifier `id`:
what the hit records say `scores[id]` holds once every record is written. -/
def lastScore (hits : List Hit) (id : JStr) : Option Score :=
  (hits.reverse.find? (fun hit => decide (hit.id = id))).map (fun hit => hit.score)

/-- The record the hit records and the lookup result call for at one hit:
none when the entry has no model or `validType` rejects the model. -/
def recordFor {M : Type} (hits : List Hit) (validType : M → Bool)
    (objects : JStr → Option (DomainObject M)) (hit : Hit) : Option (SearchResult M) :=
  (objects hit.id).bind (fun o =>
    if o.getModel.any validType then
      some { id := hit.id, object := o, score := lastScore hits hit.id, next := CursorOp.next }
    else none)

/-- A lookup result with an entry and a model for every identifier. -/
def everyObject (_ : JStr) : Option (DomainObject Unit) := some ⟨0, some ()⟩

/-! ## Sample data -/

/-- A response of five hits, identifiers `1` to `5`, by descending score. -/
def fiveHits : RawResults :=
  { total := 5
    hits := [⟨"1".toList, 50⟩, ⟨"2".toList, 40⟩, ⟨"3".toList, 30⟩, ⟨"4".toList, 20⟩,
      ⟨"5".toList, 10⟩] }

/-- A lookup result with an entry for each of `1` to `5`; the model of an
object is its number. -/
def fiveObjects (id : JStr) : Option (DomainObject Nat) :=
  if id = "1".toList then some ⟨1, some 1⟩
  else if id = "2".toList then some ⟨2, some 2⟩
  else if id = "3".toList then some ⟨3, some 3⟩
  else if id = "4".toList then some ⟨4, some 4⟩
  else if id = "5".toList then some ⟨5, some 5⟩
  else none

/-- A `validType` accepting the models 2 and 4 only. -/
def acceptsTwoFour (m : Nat) : Bool := m == 2 || m == 4

/-- A response of two hits, `a` then `b`. -/
def twoHits : RawResults :=
  { total := 2, hits := [⟨"a".toList, 9⟩, ⟨"b".toList, 4⟩] }

/-- A lookup result with an entry for `b` and none for `a`. -/
def onlyB (id : JStr) : Option (DomainObject Unit) :=
  if id = "b".toList then some ⟨2, some ()⟩ else none

/-- A lookup result where the entry for `a` has no `getModel` and the entry
for `b` has one. -/
def modellessA (id : JStr) : Option (DomainObject Unit) :=
  if id = "a".toList then some ⟨1, none⟩
  else if id = "b".toList then some ⟨2, some ()⟩
  else none

/-- A lookup result where both `a` and `b` have a model. -/
def bothAB (id : JStr) : Option (DomainObject Unit) :=
  if id = "a".toList then some ⟨1, some ()⟩
  else if id = "b".toList then some ⟨2, some ()⟩
  else none

/-- The result record for hit `a` of `twoHits`. -/
def resultA : SearchResult Unit :=
  { id := "a".toList, object := ⟨1, some ()⟩, score := some 9, next := CursorOp.next }

/-- The result record for hit `b` of `twoHits`. -/
def resultB : SearchResult Unit :=
  { id := "b".toList, object := ⟨2, some ()⟩, score := some 4, next := CursorOp.next }

/-- A response in which the identifier `a` occurs in two hit records, with
scores 9 and 1, around the hit `b` with score 5; scores are non-increasing. -/
def dupHits : RawResults :=
  { total := 3, hits := [⟨"a".toList, 9⟩, ⟨"b".toList, 5⟩, ⟨"a".toList, 1⟩] }

/-- A response of ten hits, identifiers `0` to `9`, that claims a total of 50. -/
def tenHits : RawResults :=
  { total := 50
    hits := (List.range 10).map (fun i => ⟨numberToString (i : Int), 100 - (i : Int)⟩) }

/-- A state with the two records of `twoHits` retained and the position on
the last of them. -/
def onLastRecord : Provider Unit :=
  { latestSearchResults := [resultA, resultB], currentResultIndex := 1 }

/-! ## Facts about the string primitives -/

theorem substr_zero_one_cons (c : Char) (t : JStr) : substr (c :: t) 0 1 = [c] := by
  simp only [substr, List.length_cons]
  have h : (if (0 : Int) < 0 then max (((t.length + 1 : Nat) : Int) + 0) 0
      else min 0 ((t.length + 1 : Nat) : Int)) = 0 := by
    rw [if_neg (by omega)]; omega
  rw [h]; simp

theorem substring_one_length_cons (c : Char) (t : JStr) :
    substring (c :: t) 1 ((c :: t).length : Nat) = t := by
  simp only [substring, List.length_cons]
  have h1 : min (min (max (1 : Int) 0) ((t.length + 1 : Nat) : Int))
      (min (max ((t.length + 1 : Nat) : Int) 0) ((t.length + 1 : Nat) : Int)) = 1 := by
    omega
  have h2 : max (min (max (1 : Int) 0) ((t.length + 1 : Nat) : Int))
      (min (max ((t.length + 1 : Nat) : Int) 0) ((t.length + 1 : Nat) : Int))
        = ((t.length + 1 : Nat) : Int) := by
    omega
  rw [h1, h2]
  simp

/-- The first loop removes exactly the leading run of spaces. -/
theorem shaveFront_eq_dropWhile (s : JStr) :
    shaveFront s = s.dropWhile (fun c => decide (c = space)) := by
  induction s with
  | nil => rw [shaveFront]; simp [substr]
  | cons c t ih =>
    rw [shaveFront, substr_zero_one_cons, substring_one_length_cons]
    by_cases hc : c = space
    · simp [hc, ih]
    · simp [hc]

theorem substr_last_nil : substr [] ((([] : JStr).length : Int) - 1) 1 = [] := by
  simp [substr]

theorem substr_last_snoc (t : JStr) (c : Char) :
    substr (t ++ [c]) (((t ++ [c]).length : Int) - 1) 1 = [c] := by
  simp only [substr, List.length_append, List.length_singleton]
  have h : (if (((t.length + 1 : Nat) : Int) - 1) < 0
      then max (((t.length + 1 : Nat) : Int) + (((t.length + 1 : Nat) : Int) - 1)) 0
      else min (((t.length + 1 : Nat) : Int) - 1) ((t.length + 1 : Nat) : Int))
        = (t.length : Int) := by
    rw [if_neg (by omega)]; omega
  rw [h]; simp

theorem substring_init_snoc (t : JStr) (c : Char) :
    substring (t ++ [c]) 0 (((t ++ [c]).length : Int) - 1) = t := by
  simp only [substring, List.length_append, List.length_singleton]
  have h1 : min (min (max (0 : Int) 0) ((t.length + 1 : Nat) : Int))
      (min (max (((t.length + 1 : Nat) : Int) - 1) 0) ((t.length + 1 : Nat) : Int)) = 0 := by
    omega
  have h2 : max (min (max (0 : Int) 0) ((t.length + 1 : Nat) : Int))
      (min (max (((t.length + 1 : Nat) : Int) - 1) 0) ((t.length + 1 : Nat) : Int))
        = (t.length : Int) := by
    omega
  rw [h1, h2]
  simp

/-- The second loop removes exactly the trailing run of spaces. -/
theorem shaveBack_eq_rdropWhile (s : JStr) :
    shaveBack s = s.rdropWhile (fun c => decide (c = space)) := by
  induction s using List.reverseRecOn with
  | nil => rw [shaveBack]; simp [substr]
  | append_singleton t c ih =>
    rw [shaveBack, substr_last_snoc, substring_init_snoc]
    by_cases hc : c = space
    · simp [hc, ih, List.rdropWhile_concat]
    · simp [hc, List.rdropWhile_concat]

theorem shave_eq_trimSpaces (s : JStr) : shaveBack (shaveFront s) = trimSpaces s := by
  rw [shaveBack_eq_rdropWhile, shaveFront_eq_dropWhile, trimSpaces]

/-- The body of `processSearchTerm` once both loops have run. -/
theorem processSearchTerm_eq (s : JStr) :
    processSearchTerm s =
      if isDefaultFormat (trimSpaces s) then
        "name:".toList ++ addFuzziness (trimSpaces s) none
      else trimSpaces s := by
  simp only [processSearchTerm, shave_eq_trimSpaces]

theorem includes_iff (s pat : JStr) : includes s pat = true ↔ pat <:+: s := by
  induction s with
  | nil =>
    cases pat with
    | nil => simp [includes]
    | cons a as => simp [includes, List.isPrefixOf]
  | cons c cs ih =>
    rw [includes, Bool.or_eq_true, ih, List.isPrefixOf_iff_prefix, List.infix_cons_iff]

theorem includes_eq_false_iff (s pat : JStr) : includes s pat = false ↔ ¬ pat <:+: s := by
  rw [← includes_iff, Bool.not_eq_true]

theorem includes_singleton (s : JStr) (c : Char) : includes s [c] = true ↔ c ∈ s := by
  rw [includes_iff]
  constructor
  · intro h
    exact List.singleton_sublist.mp h.sublist
  · intro h
    obtain ⟨l1, l2, rfl⟩ := List.append_of_mem h
    exact ⟨l1, l2, by simp⟩

theorem split_ne_nil (sep : Char) (s : JStr) : split sep s ≠ [] := by
  cases s with
  | nil => simp [split]
  | cons c cs =>
    rw [split]
    split
    · simp
    · split <;> simp

theorem split_eq_splitOn (sep : Char) (s : JStr) : split sep s = s.splitOn sep := by
  induction s with
  | nil => simp [split, List.splitOn, List.splitOnP_nil]
  | cons c cs ih =>
    rw [split, List.splitOn, List.splitOnP_cons]
    by_cases h : c = sep
    · have ih2 : split sep cs = List.splitOnP (fun x => x == sep) cs := ih
      simp [h, ih2]
    · have hb : (c == sep) = false := by simpa using h
      rw [if_neg h, hb]
      simp only [Bool.false_eq_true, if_false]
      have ih2 : split sep cs = List.splitOnP (fun x => x == sep) cs := ih
      rw [← ih2]
      cases hs : split sep cs with
      | nil => exact absurd hs (split_ne_nil sep cs)
      | cons t ts => simp [List.modifyHead]

theorem join_eq_intercalate (sep : JStr) (l : List JStr) : join sep l = sep.intercalate l := by
  induction l with
  | nil => simp [join, List.intercalate]
  | cons t ts ih =>
    cases ts with
    | nil => simp [join, List.intercalate]
    | cons u us =>
      rw [join, ih]
      simp [List.intercalate, List.intersperse]

theorem addFuzziness_none (s : JStr) :
    addFuzziness s none = [space].intercalate
      ((s.splitOn space).map (fun t => if dquote ∈ t then t else t ++ [tilde])) := by
  simp only [addFuzziness, join_eq_intercalate, split_eq_splitOn, List.append_nil]
  congr 1
  apply List.map_congr_left
  intro t _
  by_cases h : dquote ∈ t
  · rw [if_pos h, if_pos ((includes_singleton t dquote).mpr h)]
  · rw [if_neg h, if_neg (fun hc => h ((includes_singleton t dquote).mp hc))]

theorem isDefaultFormat_iff (s : JStr) :
    isDefaultFormat s = true ↔ ¬ "name:".toList <:+: s ∧ ¬ "type:".toList <:+: s := by
  rw [← includes_eq_false_iff, ← includes_eq_false_iff]
  unfold isDefaultFormat
  cases includes s "name:".toList <;> cases includes s "type:".toList <;> simp

theorem infix_dropWhile_space {pat s : JStr} (a : Char) (as : JStr) (hp : pat = a :: as)
    (ha : a ≠ space) (h : pat <:+: s) :
    pat <:+: s.dropWhile (fun c => decide (c = space)) := by
  induction s with
  | nil => simpa using h
  | cons c cs ih =>
    by_cases hc : c = space
    · rw [List.dropWhile_cons_of_pos (by simpa using hc)]
      apply ih
      rcases List.infix_cons_iff.mp h with hpre | hin
      · subst hp
        obtain ⟨t, ht⟩ := hpre
        simp only [List.cons_append, List.cons.injEq] at ht
        exact absurd (ht.1.trans hc) ha
      · exact hin
    · rw [List.dropWhile_cons_of_neg (by simpa using hc)]
      exact h

theorem infix_rdropWhile_space {pat s : JStr} (as : JStr) (a : Char) (hp : pat = as ++ [a])
    (ha : a ≠ space) (h : pat <:+: s) :
    pat <:+: s.rdropWhile (fun c => decide (c = space)) := by
  have h1 : pat.reverse <:+: s.reverse.dropWhile (fun c => decide (c = space)) :=
    infix_dropWhile_space a as.reverse (by rw [hp]; simp) ha (List.reverse_infix.mpr h)
  have h2 := List.reverse_infix.mpr h1
  rw [List.reverse_reverse] at h2
  exact h2

theorem infix_trimSpaces {pat s : JStr} (a : Char) (as : JStr) (b : Char) (bs : JStr)
    (hp : pat = a :: as) (hq : pat = bs ++ [b]) (ha : a ≠ space) (hb : b ≠ space)
    (h : pat <:+: s) : pat <:+: trimSpaces s :=
  infix_rdropWhile_space bs b hq hb (infix_dropWhile_space a as hp ha h)

theorem name_infix_trimSpaces {s : JStr} (h : "name:".toList <:+: s) :
    "name:".toList <:+: trimSpaces s :=
  infix_trimSpaces (Char.ofNat 110) "ame:".toList (Char.ofNat 58) "name".toList
    (by decide) (by decide) (by decide) (by decide) h

theorem type_infix_trimSpaces {s : JStr} (h : "type:".toList <:+: s) :
    "type:".toList <:+: trimSpaces s :=
  infix_trimSpaces (Char.ofNat 116) "ype:".toList (Char.ofNat 58) "type".toList
    (by decide) (by decide) (by decide) (by decide) h

theorem trimSpaces_of_no_end_space (s : JStr) (hfront : s.head? ≠ some space)
    (hback : s.getLast? ≠ some space) : trimSpaces s = s := by
  unfold trimSpaces
  have h1 : s.dropWhile (fun c => decide (c = space)) = s := by
    cases s with
    | nil => rfl
    | cons c cs =>
      apply List.dropWhile_cons_of_neg
      simpa using fun hc => hfront (by simp [hc])
  rw [h1]
  induction s using List.reverseRecOn with
  | nil => rfl
  | append_singleton t c _ =>
    rw [List.rdropWhile_concat_neg]
    simpa using fun hc => hback (by simp [hc])

theorem trimSpaces_head (s : JStr) : (trimSpaces s).head? ≠ some space := by
  unfold trimSpaces
  intro hc
  obtain ⟨r, hr⟩ := List.rdropWhile_prefix (fun c => decide (c = space))
    (s.dropWhile (fun c => decide (c = space)))
  cases ht : (s.dropWhile (fun c => decide (c = space))).rdropWhile
      (fun c => decide (c = space)) with
  | nil => rw [ht] at hc; simp at hc
  | cons a t =>
    rw [ht] at hc hr
    have ha : a = space := by simpa using hc
    have hnot := List.head?_dropWhile_not (fun c => decide (c = space)) s
    rw [← hr] at hnot
    simp [ha] at hnot

theorem trimSpaces_getLast (s : JStr) : (trimSpaces s).getLast? ≠ some space := by
  unfold trimSpaces
  intro hc
  have hne : (s.dropWhile (fun c => decide (c = space))).rdropWhile
      (fun c => decide (c = space)) ≠ [] := by
    intro h0; rw [h0] at hc; simp at hc
  have hnot := List.rdropWhile_last_not (fun c => decide (c = space))
    (s.dropWhile (fun c => decide (c = space))) hne
  rw [List.getLast?_eq_getLast _ hne] at hc
  have hl := Option.some.inj hc
  rw [hl] at hnot
  simp at hnot

theorem trimSpaces_all_space (s : JStr) (h : ∀ c ∈ s, c = space) : trimSpaces s = [] := by
  unfold trimSpaces
  have h1 : s.dropWhile (fun c => decide (c = space)) = [] := by
    rw [List.dropWhile_eq_nil_iff]
    intro c hc
    simpa using h c hc
  rw [h1]; rfl

/-! ## Facts about the cursor -/

theorem next_eq {M : Type} (rs : List (SearchResult M)) (j : Int) (hj : -1 ≤ j) :
    next { latestSearchResults := rs, currentResultIndex := j } =
      (rs[(j + 1).toNat]?, { latestSearchResults := rs, currentResultIndex := j + 1 }) := by
  simp only [next]
  by_cases h : j + 1 > (rs.length : Int)
  · rw [if_pos h]
    have hlen : rs.length ≤ (j + 1).toNat := by omega
    rw [List.getElem?_eq_none hlen]
  · rw [if_neg h, arrayGet, if_neg (by omega)]

theorem first_eq {M : Type} (p : Provider M) :
    first p = (p.latestSearchResults[0]?,
      { latestSearchResults := p.latestSearchResults, currentResultIndex := 0 }) := by
  simp only [first]
  rw [next_eq p.latestSearchResults (-1) (le_refl _)]
  rfl

theorem runCalls_append {M : Type} (a b : List Call) (p : Provider M) :
    runCalls (a ++ b) p =
      ((runCalls a p).1 ++ (runCalls b (runCalls a p).2).1, (runCalls b (runCalls a p).2).2) := by
  induction a generalizing p with
  | nil => simp [runCalls]
  | cons c cs ih => simp [runCalls, ih]

theorem runCalls_nexts {M : Type} (rs : List (SearchResult M)) (k n : Nat) :
    runCalls (List.replicate k Call.next)
        { latestSearchResults := rs, currentResultIndex := (n : Int) } =
      ((List.range' (n + 1) k).map (fun i => rs[i]?),
        { latestSearchResults := rs, currentResultIndex := ((n + k : Nat) : Int) }) := by
  induction k generalizing n with
  | zero => simp [runCalls]
  | succ k ih =>
    rw [List.replicate_succ, runCalls, runCall, next_eq rs n (by omega)]
    have h1 : ((n : Int) + 1) = ((n + 1 : Nat) : Int) := by omega
    simp only [h1, ih (n + 1), Int.toNat_ofNat, List.range'_succ, List.map_cons]
    have h2 : n + 1 + k = n + (k + 1) := by omega
    rw [h2]

theorem runCalls_first_nexts {M : Type} (p : Provider M) (k : Nat) :
    runCalls (Call.first :: List.replicate k Call.next) p =
      ((List.range (k + 1)).map (fun i => p.latestSearchResults[i]?),
        { latestSearchResults := p.latestSearchResults, currentResultIndex := (k : Int) }) := by
  rw [runCalls, runCall, first_eq]
  have h := runCalls_nexts p.latestSearchResults k 0
  simp only [Nat.cast_zero, Nat.zero_add] at h
  simp only [h, List.range_eq_range', List.range'_succ, List.map_cons]

theorem reachable_index_nonneg {M : Type} {p : Provider M} (h : Reachable p) :
    0 ≤ p.currentResultIndex := by
  induction h with
  | init => simp [Provider.init]
  | afterFirst _ _ => rw [first_eq]
  | @afterNext q _ ih =>
    have hn : next q = (q.latestSearchResults[(q.currentResultIndex + 1).toNat]?,
        { latestSearchResults := q.latestSearchResults,
          currentResultIndex := q.currentResultIndex + 1 }) :=
      next_eq q.latestSearchResults q.currentResultIndex (by omega)
    rw [hn]
    show 0 ≤ q.currentResultIndex + 1
    omega
  | httpResponse raw vt _ _ =>
    simp only [onHttpResponse]
    rw [first_eq]
  | @objectsResolved q l objects _ ih =>
    simp only [processResultsDone]
    split
    · exact ih
    · exact ih

/-! ## Facts about result processing -/

theorem filterLoop_ids {M : Type} (objects : JStr → Option (DomainObject M)) (l : Lookup M)
    (ids : List JStr) (acc : List (SearchResult M))
    (h : ∀ id ∈ ids, (objects id).isSome = true) :
    ∃ rs, filterLoop objects l ids acc = .ok (acc ++ rs) ∧
      rs.map (fun r => r.id) =
        ids.filter (fun id => (objects id).any (fun o => o.getModel.any l.validType)) := by
  induction ids generalizing acc with
  | nil => exact ⟨[], by simp [filterLoop]⟩
  | cons id rest ih =>
    have hrest : ∀ i ∈ rest, (objects i).isSome = true :=
      fun i hi => h i (List.mem_cons_of_mem _ hi)
    have hid := h id (List.mem_cons_self _ _)
    cases ho : objects id with
    | none => rw [ho] at hid; simp at hid
    | some o =>
      cases hm : o.getModel with
      | none =>
        obtain ⟨rs, h1, h2⟩ := ih acc hrest
        refine ⟨rs, ?_, ?_⟩
        · rw [filterLoop]; simp only [ho, hm]; exact h1
        · rw [h2]; simp [List.filter_cons, ho, hm]
      | some m =>
        by_cases hv : l.validType m = true
        · obtain ⟨rs, h1, h2⟩ := ih
            (acc ++ [{ id := id, object := o, score := l.scores id, next := CursorOp.next }])
            hrest
          refine ⟨{ id := id, object := o, score := l.scores id, next := CursorOp.next } :: rs,
            ?_, ?_⟩
          · rw [filterLoop]; simp only [ho, hm, hv, if_true]
            rw [h1]; simp
          · simp [List.filter_cons, ho, hm, hv, h2]
        · obtain ⟨rs, h1, h2⟩ := ih acc hrest
          refine ⟨rs, ?_, ?_⟩
          · rw [filterLoop]; simp only [ho, hm, hv]; exact h1
          · rw [h2]; simp [List.filter_cons, ho, hm, hv]

theorem filterLoop_congr {M : Type} (objects : JStr → Option (DomainObject M))
    (l1 l2 : Lookup M) (hv : l1.validType = l2.validType) (hs : l1.scores = l2.scores)
    (ids : List JStr) (acc : List (SearchResult M)) :
    filterLoop objects l1 ids acc = filterLoop objects l2 ids acc := by
  induction ids generalizing acc with
  | nil => simp [filterLoop]
  | cons id rest ih =>
    rw [filterLoop, filterLoop]
    cases objects id with
    | none => rfl
    | some o =>
      cases hm : o.getModel with
      | none => simp only [hm]; exact ih acc
      | some m =>
        simp only [hm, hv, hs]
        by_cases hval : l2.validType m = true
        · rw [if_pos hval, if_pos hval]; exact ih _
        · rw [if_neg hval, if_neg hval]; exact ih _

theorem buildScores_eq (hits : List Hit) (scores : JStr → Option Score) (id : JStr) :
    buildScores hits scores id =
      match hits.reverse.find? (fun hit => decide (hit.id = id)) with
      | some hit => some hit.score
      | none => scores id := by
  induction hits generalizing scores with
  | nil => simp [buildScores]
  | cons h hs ih =>
    rw [buildScores, ih, List.reverse_cons, List.find?_append]
    cases hf : hs.reverse.find? (fun hit => decide (hit.id = id)) with
    | some x => simp
    | none =>
      simp only [Option.none_or, List.find?_singleton]
      by_cases hid : h.id = id
      · simp [hid]
      · have hid2 : ¬ id = h.id := fun e => hid e.symm
        simp [hid, hid2]

theorem processResultsStart_scores {M : Type} (rawResults : RawResults) (validType : M → Bool)
    (id : JStr) :
    (processResultsStart rawResults validType).scores id = lastScore rawResults.hits id := by
  simp only [processResultsStart, buildScores_eq, lastScore]
  cases rawResults.hits.reverse.find? (fun hit => decide (hit.id = id)) <;> rfl

theorem filterLoop_eq_filterMap {M : Type} (objects : JStr → Option (DomainObject M))
    (l : Lookup M) (ids : List JStr) (acc : List (SearchResult M))
    (h : ∀ id ∈ ids, (objects id).isSome = true) :
    filterLoop objects l ids acc = .ok (acc ++ ids.filterMap (fun id =>
      (objects id).bind (fun o =>
        if o.getModel.any l.validType then
          some { id := id, object := o, score := l.scores id, next := CursorOp.next }
        else none))) := by
  induction ids generalizing acc with
  | nil => simp [filterLoop]
  | cons id rest ih =>
    have hrest : ∀ i ∈ rest, (objects i).isSome = true :=
      fun i hi => h i (List.mem_cons_of_mem _ hi)
    have hid := h id (List.mem_cons_self _ _)
    cases ho : objects id with
    | none => rw [ho] at hid; simp at hid
    | some o =>
      cases hm : o.getModel with
      | none =>
        rw [filterLoop]
        simp only [ho, hm]
        rw [ih acc hrest]
        simp [List.filterMap_cons, ho, hm]
      | some m =>
        by_cases hv : l.validType m = true
        · rw [filterLoop]
          simp only [ho, hm, hv, if_true]
          rw [ih _ hrest]
          simp [List.filterMap_cons, ho, hm, hv]
        · rw [filterLoop]
          simp only [ho, hm, hv]
          rw [ih acc hrest]
          simp [List.filterMap_cons, ho, hm, hv]

theorem filterLoop_error {M : Type} (objects : JStr → Option (DomainObject M))
    (l : Lookup M) (ids : List JStr) (acc : List (SearchResult M))
    (h : ∃ id ∈ ids, objects id = none) :
    filterLoop objects l ids acc = .error JsError.typeError := by
  induction ids generalizing acc with
  | nil => obtain ⟨id, hid, _⟩ := h; simp at hid
  | cons id rest ih =>
    cases ho : objects id with
    | none => rw [filterLoop]; simp only [ho]
    | some o =>
      have hrest : ∃ i ∈ rest, objects i = none := by
        obtain ⟨i, hi, hnone⟩ := h
        rcases List.mem_cons.mp hi with hi | hi
        · rw [hi, ho] at hnone; simp at hnone
        · exact ⟨i, hi, hnone⟩
      rw [filterLoop]
      simp only [ho]
      cases o.getModel with
      | none => exact ih acc hrest
      | some m =>
        simp only
        split
        · exact ih _ hrest
        · exact ih acc hrest

/-! ## Facts about the pieces of a term -/

theorem addFuzziness_none_eq (s : JStr) :
    addFuzziness s none = join [space] ((split space s).map markToken) := by
  simp only [addFuzziness, List.append_nil]
  rfl

theorem split_cons_of_ne (sep c : Char) (cs : JStr) (h : c ≠ sep) :
    ∃ t ts, split sep cs = t :: ts ∧ split sep (c :: cs) = (c :: t) :: ts := by
  cases hs : split sep cs with
  | nil => exact absurd hs (split_ne_nil sep cs)
  | cons t ts =>
    refine ⟨t, ts, rfl, ?_⟩
    rw [split, if_neg h, hs]

theorem split_no_sep (sep : Char) (s : JStr) : ∀ x ∈ split sep s, sep ∉ x := by
  induction s with
  | nil => intro x hx; simp [split] at hx; simp [hx]
  | cons c cs ih =>
    intro x hx
    by_cases h : c = sep
    · rw [split, if_pos h] at hx
      rcases List.mem_cons.mp hx with hx | hx
      · simp [hx]
      · exact ih x hx
    · obtain ⟨t, ts, h1, h2⟩ := split_cons_of_ne sep c cs h
      rw [h2] at hx
      rcases List.mem_cons.mp hx with hx | hx
      · rw [hx]
        intro hmem
        rcases List.mem_cons.mp hmem with hm | hm
        · exact h hm.symm
        · exact ih t (by rw [h1]; exact List.mem_cons_self _ _) hm
      · exact ih x (by rw [h1]; exact List.mem_cons_of_mem _ hx)

theorem join_getLast (sep : JStr) (l : List JStr) (x : JStr) (hl : l.getLast? = some x)
    (hx : x ≠ []) : (join sep l).getLast? = x.getLast? := by
  induction l with
  | nil => simp at hl
  | cons t ts ih =>
    cases ts with
    | nil =>
      simp only [List.getLast?_singleton, Option.some.injEq] at hl
      rw [join, hl]
    | cons u us =>
      rw [List.getLast?_cons_cons] at hl
      rw [join, List.getLast?_append, ih hl]
      cases hxl : x.getLast? with
      | none => exact absurd (List.getLast?_eq_none_iff.mp hxl) hx
      | some c => rfl

theorem markToken_ne_nil (x : JStr) : markToken x ≠ [] := by
  unfold markToken
  split
  · rename_i h
    intro h0
    rw [h0] at h
    exact absurd h (by decide)
  · simp

theorem markToken_no_space (x : JStr) (hx : space ∉ x) : space ∉ markToken x := by
  unfold markToken
  split
  · exact hx
  · intro h
    rcases List.mem_append.mp h with h | h
    · exact hx h
    · exact absurd (List.mem_singleton.mp h) (by decide)

theorem markToken_eq_tilde (x : JStr) (h : markToken x = [tilde]) : x = [] := by
  unfold markToken at h
  split at h
  · rename_i hq
    rw [h] at hq
    exact absurd hq (by decide)
  · cases x with
    | nil => rfl
    | cons c cs =>
      have hlen := congrArg List.length h
      simp at hlen

theorem addFuzziness_getLast (t : JStr) : (addFuzziness t none).getLast? ≠ some space := by
  rw [addFuzziness_none_eq]
  have hne : (split space t).map markToken ≠ [] := by
    simpa using split_ne_nil space t
  obtain ⟨y, hy⟩ := Option.isSome_iff_exists.mp (List.getLast?_isSome.mpr hne)
  have hmem : y ∈ (split space t).map markToken := List.mem_of_getLast?_eq_some hy
  obtain ⟨x, hx, rfl⟩ := List.mem_map.mp hmem
  rw [join_getLast [space] _ _ hy (markToken_ne_nil x)]
  intro hc
  exact markToken_no_space x (split_no_sep space t x hx) (List.mem_of_getLast?_eq_some hc)

theorem addFuzziness_ne_nil (t : JStr) : addFuzziness t none ≠ [] := by
  rw [addFuzziness_none_eq]
  have hne : (split space t).map markToken ≠ [] := by
    simpa using split_ne_nil space t
  obtain ⟨y, hy⟩ := Option.isSome_iff_exists.mp (List.getLast?_isSome.mpr hne)
  obtain ⟨x, _, rfl⟩ := List.mem_map.mp (List.mem_of_getLast?_eq_some hy)
  intro h0
  have h1 := join_getLast [space] _ _ hy (markToken_ne_nil x)
  rw [h0] at h1
  exact markToken_ne_nil x (List.getLast?_eq_none_iff.mp h1.symm)

theorem processSearchTerm_head (s : JStr) : (processSearchTerm s).head? ≠ some space := by
  rw [processSearchTerm_eq]
  split
  · have hh : ("name:".toList ++ addFuzziness (trimSpaces s) none).head? =
        some (Char.ofNat 110) := rfl
    rw [hh]
    decide
  · exact trimSpaces_head s

theorem processSearchTerm_getLast (s : JStr) :
    (processSearchTerm s).getLast? ≠ some space := by
  rw [processSearchTerm_eq]
  split
  · rw [List.getLast?_append]
    cases h : (addFuzziness (trimSpaces s) none).getLast? with
    | none => exact absurd (List.getLast?_eq_none_iff.mp h) (addFuzziness_ne_nil _)
    | some c =>
      intro hc
      have hcs : c = space := by simpa using hc
      exact addFuzziness_getLast (trimSpaces s) (by rw [h, hcs])
  · exact trimSpaces_getLast s

theorem processSearchTerm_of_selector (s : JStr)
    (h : "name:".toList <:+: s ∨ "type:".toList <:+: s) :
    processSearchTerm s = trimSpaces s := by
  have hnd : isDefaultFormat (trimSpaces s) = false := by
    rw [← Bool.not_eq_true, isDefaultFormat_iff]
    rintro ⟨h1, h2⟩
    rcases h with h | h
    · exact h1 (name_infix_trimSpaces h)
    · exact h2 (type_infix_trimSpaces h)
  rw [processSearchTerm_eq, hnd]; simp

theorem processSearchTerm_has_selector (s : JStr) :
    "name:".toList <:+: processSearchTerm s ∨ "type:".toList <:+: processSearchTerm s := by
  rw [processSearchTerm_eq]
  by_cases hd : isDefaultFormat (trimSpaces s) = true
  · rw [if_pos hd]
    exact Or.inl ⟨[], addFuzziness (trimSpaces s) none, by simp⟩
  · rw [if_neg hd]
    rw [isDefaultFormat_iff] at hd
    by_contra hcon
    exact hd ⟨fun h => hcon (Or.inl h), fun h => hcon (Or.inr h)⟩

theorem split_tail_ne_nil (sep : Char) (s : JStr) (hinf : ¬ [sep, sep] <:+: s)
    (hlast : s.getLast? ≠ some sep) : ∀ x ∈ (split sep s).tail, x ≠ [] := by
  induction s with
  | nil => intro x hx; simp [split] at hx
  | cons c cs ih =>
    have hinf2 : ¬ [sep, sep] <:+: cs := fun h => hinf (List.infix_cons h)
    have hlast2 : cs.getLast? ≠ some sep := by
      cases cs with
      | nil => simp
      | cons d ds => rwa [List.getLast?_cons_cons] at hlast
    have ih2 := ih hinf2 hlast2
    by_cases h : c = sep
    · rw [split, if_pos h, List.tail_cons]
      cases cs with
      | nil => subst h; simp at hlast
      | cons d ds =>
        have hd : d ≠ sep := by
          intro hd
          apply hinf
          subst h; subst hd
          exact ⟨[], ds, by simp⟩
        obtain ⟨t, ts, _, h2⟩ := split_cons_of_ne sep d ds hd
        intro x hx
        rw [h2] at hx ih2
        rcases List.mem_cons.mp hx with hx | hx
        · rw [hx]; simp
        · exact ih2 x (by simpa using hx)
    · obtain ⟨t, ts, h1, h2⟩ := split_cons_of_ne sep c cs h
      rw [h2, List.tail_cons]
      rw [h1, List.tail_cons] at ih2
      exact ih2

theorem split_ne_nil_pieces (sep : Char) (s : JStr) (hs : s ≠ [])
    (hhead : s.head? ≠ some sep) (hlast : s.getLast? ≠ some sep)
    (hinf : ¬ [sep, sep] <:+: s) : ∀ x ∈ split sep s, x ≠ [] := by
  cases s with
  | nil => exact absurd rfl hs
  | cons c cs =>
    have hc : c ≠ sep := by
      intro h; apply hhead; simp [h]
    have htail := split_tail_ne_nil sep (c :: cs) hinf hlast
    obtain ⟨t, ts, _, h2⟩ := split_cons_of_ne sep c cs hc
    rw [h2] at htail ⊢
    intro x hx
    rcases List.mem_cons.mp hx with hx | hx
    · rw [hx]; simp
    · exact htail x (by simpa using hx)

theorem split_join_markToken (t : JStr) :
    split space (join [space] ((split space t).map markToken)) =
      (split space t).map markToken := by
  rw [split_eq_splitOn, join_eq_intercalate]
  apply List.splitOn_intercalate
  · intro l hl
    obtain ⟨x, hx, rfl⟩ := List.mem_map.mp hl
    exact markToken_no_space x (split_no_sep space t x hx)
  · simpa using split_ne_nil space t

/-! ## Facts about the bounded loops -/

theorem loopFront_eq (fuel : Nat) (s : JStr) (h : s.length < fuel) :
    loopFront fuel s = some (shaveFront s) := by
  induction fuel generalizing s with
  | zero => omega
  | succ fuel ih =>
    cases s with
    | nil =>
      rw [loopFront, shaveFront]
      simp [substr]
    | cons c t =>
      rw [loopFront, shaveFront, substr_zero_one_cons, substring_one_length_cons]
      have ht : t.length < fuel := by
        simp only [List.length_cons] at h; omega
      by_cases hc : [c] = [space]
      · rw [if_pos hc, if_pos hc]; exact ih t ht
      · rw [if_neg hc, if_neg hc]

theorem loopBack_eq (fuel : Nat) (s : JStr) (h : s.length < fuel) :
    loopBack fuel s = some (shaveBack s) := by
  induction fuel generalizing s with
  | zero => omega
  | succ fuel ih =>
    induction s using List.reverseRecOn with
    | nil =>
      rw [loopBack, shaveBack]
      simp [substr]
    | append_singleton t c _ =>
      rw [loopBack, shaveBack, substr_last_snoc, substring_init_snoc]
      have ht : t.length < fuel := by
        simp only [List.length_append, List.length_singleton] at h; omega
      by_cases hc : [c] = [space]
      · rw [if_pos hc, if_pos hc]; exact ih t ht
      · rw [if_neg hc, if_neg hc]

theorem shaveFront_length_le (s : JStr) : (shaveFront s).length ≤ s.length := by
  rw [shaveFront_eq_dropWhile]
  exact (List.dropWhile_suffix _).length_le

/-! ## Claims -/

/-- C1 (the code at a first search): from the initial state, a search whose
response holds the hits `a` and `b`, both resolvable and accepted, resolves
to the exhausted signal although the sequence resolved from that response
starts with the record of `a`; the retained sequence afterwards is that
sequence with position 0. A following search with an empty response then
resolves to the record of `a`, taken from the earlier search. -/
theorem search_value_is_stale :
    (search (Provider.init : Provider Unit) twoHits (fun _ => true) bothAB).1 = none ∧
      processResults twoHits (fun _ => true) bothAB = .ok [resultA, resultB] ∧
      (search (Provider.init : Provider Unit) twoHits (fun _ => true) bothAB).2 =
        { latestSearchResults := [resultA, resultB], currentResultIndex := 0 } ∧
      (search { latestSearchResults := [resultA, resultB], currentResultIndex := 0 }
        { total := 0, hits := [] } (fun _ => true) bothAB).1 = some resultA ∧
      processResults { total := 0, hits := [] } (fun _ => true) bothAB = .ok [] := by
  refine ⟨by decide, by rfl, by decide, by decide, by rfl⟩

/-- C2: when the lookup result has an entry for every returned identifier,
`processResults` succeeds and the identifiers of its result are the hit
identifiers, in order and with multiplicity, whose entry has a model that
`validType` accepts. -/
theorem processResults_ids {M : Type} (rawResults : RawResults) (validType : M → Bool)
    (objects : JStr → Option (DomainObject M))
    (h : ∀ hit ∈ rawResults.hits, (objects hit.id).isSome = true) :
    ∃ rs, processResults rawResults validType objects = .ok rs ∧
      rs.map (fun r => r.id) =
        (rawResults.hits.map (fun hit => hit.id)).filter
          (fun id => (objects id).any (fun o => o.getModel.any validType)) := by
  have h2 : ∀ id ∈ (processResultsStart rawResults validType).ids,
      (objects id).isSome = true := by
    intro id hid
    simp only [processResultsStart, List.mem_map] at hid
    obtain ⟨hit, hmem, rfl⟩ := hid
    exact h hit hmem
  obtain ⟨rs, h3, h4⟩ :=
    filterLoop_ids objects (processResultsStart rawResults validType) _ [] h2
  exact ⟨rs, by simpa [processResults] using h3, h4⟩

/-- C2 at five hits of which `validType` accepts 2 and 4: the result holds
identifier 2, then identifier 4. -/
theorem processResults_ids_witness :
    ∃ rs, processResults fiveHits acceptsTwoFour fiveObjects = .ok rs ∧
      rs.map (fun r => r.id) = ["2".toList, "4".toList] := by
  obtain ⟨rs, h1, h2⟩ := processResults_ids fiveHits acceptsTwoFour fiveObjects (by decide)
  exact ⟨rs, h1, h2.trans (by decide)⟩

/-- C3 (the code at a missing entry): with hits `a` and `b` and a lookup
result that has no entry for `a`, `processResults` throws instead of
returning the record of `b`, and the retained sequence is left as it was;
when the entry for `a` is present without `getModel`, `a` is skipped and
the record of `b` is returned. -/
theorem processResults_missing_entry :
    processResults twoHits (fun _ => true) onlyB = .error JsError.typeError ∧
      (processResultsDone (Provider.init : Provider Unit)
        (processResultsStart twoHits (fun _ => true)) onlyB).2 = Provider.init ∧
      processResults twoHits (fun _ => true) modellessA = .ok [resultB] := by
  refine ⟨by rfl, by decide, by rfl⟩

/-- C4: for a term whose space-trimmed form contains neither `name:` nor
`type:`, `processSearchTerm` returns `name:` followed by the space-separated
tokens of the trimmed term rejoined with single spaces, where a token without a
double quote gets `~` appended and a token with a double quote is unchanged. -/
theorem processSearchTerm_default (s : JStr)
    (hname : ¬ "name:".toList <:+: trimSpaces s)
    (htype : ¬ "type:".toList <:+: trimSpaces s) :
    processSearchTerm s =
      "name:".toList ++ [space].intercalate
        (((trimSpaces s).splitOn space).map
          (fun t => if dquote ∈ t then t else t ++ [tilde])) := by
  rw [processSearchTerm_eq, if_pos ((isDefaultFormat_iff _).mpr ⟨hname, htype⟩),
    addFuzziness_none]

/-- C4 at the term `"  cat dog  "`: the result is `"name:cat~ dog~"`. -/
theorem processSearchTerm_default_witness :
    processSearchTerm "  cat dog  ".toList = "name:cat~ dog~".toList := by
  rw [processSearchTerm_default "  cat dog  ".toList
    (by rw [← includes_eq_false_iff]; decide) (by rw [← includes_eq_false_iff]; decide)]
  decide

/-- C5 (the code at a three-word quoted phrase): for the term `"a b c"`
written with its double quotes, `processSearchTerm` returns
`name:"a b~ c"`: the inner word `b` of the phrase is given the marker `~`. -/
theorem processSearchTerm_quoted_phrase :
    processSearchTerm ([dquote] ++ "a b c".toList ++ [dquote]) =
      "name:".toList ++ [dquote] ++ "a b~ c".toList ++ [dquote] := by
  rw [processSearchTerm_eq]; decide

/-- C6: for a term containing `name:` or `type:`, `processSearchTerm` returns
the term without its leading and trailing spaces (no `name:` in front, no
marker added), and so returns the term itself exactly when the term neither
starts nor ends with a space. -/
theorem processSearchTerm_selector (s : JStr)
    (h : "name:".toList <:+: s ∨ "type:".toList <:+: s) :
    processSearchTerm s = trimSpaces s ∧
      (processSearchTerm s = s ↔ (s.head? ≠ some space ∧ s.getLast? ≠ some space)) := by
  have hnd : isDefaultFormat (trimSpaces s) = false := by
    rw [← Bool.not_eq_true, isDefaultFormat_iff]
    rintro ⟨h1, h2⟩
    rcases h with h | h
    · exact h1 (name_infix_trimSpaces h)
    · exact h2 (type_infix_trimSpaces h)
  have heq : processSearchTerm s = trimSpaces s := by
    rw [processSearchTerm_eq, hnd]; simp
  refine ⟨heq, ?_, fun hfb => ?_⟩
  · intro hs
    rw [heq] at hs
    exact ⟨hs ▸ trimSpaces_head s, hs ▸ trimSpaces_getLast s⟩
  · rw [heq, trimSpaces_of_no_end_space s hfb.1 hfb.2]

/-- C6 at the terms `"type:foo"` and `"  name:a b "`. -/
theorem processSearchTerm_selector_witness :
    processSearchTerm "type:foo".toList = "type:foo".toList ∧
      processSearchTerm "  name:a b ".toList = "name:a b".toList := by
  refine ⟨(processSearchTerm_selector "type:foo".toList
      (Or.inr ((includes_iff _ _).mp (by decide)))).2.mpr ⟨by decide, by decide⟩, ?_⟩
  rw [(processSearchTerm_selector "  name:a b ".toList
      (Or.inl ((includes_iff _ _).mp (by decide)))).1]
  decide

/-- C7 as stated fails: for the empty term and for a term of two spaces
`processSearchTerm` returns `"name:~"`, which is not the empty string. -/
theorem processSearchTerm_blank_counterexample :
    processSearchTerm [] = "name:~".toList ∧ processSearchTerm [] ≠ [] ∧
      processSearchTerm "  ".toList = "name:~".toList ∧ processSearchTerm "  ".toList ≠ [] := by
  rw [processSearchTerm_eq, processSearchTerm_eq]; decide

/-- C7 amended: for every term that is empty or consists only of spaces,
`processSearchTerm` returns `"name:~"`. -/
theorem processSearchTerm_blank (s : JStr) (h : ∀ c ∈ s, c = space) :
    processSearchTerm s = "name:~".toList := by
  rw [processSearchTerm_eq, trimSpaces_all_space s h]; decide

/-- C7 amended, at the term of three spaces. -/
theorem processSearchTerm_blank_witness :
    processSearchTerm "   ".toList = "name:~".toList :=
  processSearchTerm_blank "   ".toList (by decide)

/-- C8: on a retained sequence of length `N`, `first()` followed by `k` calls
of `next()` returns, call by call, element `i` for `i < N` and the exhausted
signal for every `i ≥ N`; the retained sequence is untouched; and a further
`first()` followed by `next()` calls produces the same trace again. -/
theorem cursor_trace {M : Type} (p : Provider M) (k : Nat) :
    (runCalls (Call.first :: List.replicate k Call.next) p).1 =
        (List.range (k + 1)).map (fun i => p.latestSearchResults[i]?) ∧
      (∀ i (h : i < p.latestSearchResults.length), i ≤ k →
        (runCalls (Call.first :: List.replicate k Call.next) p).1[i]? =
          some (some (p.latestSearchResults.get ⟨i, h⟩))) ∧
      (∀ i, p.latestSearchResults.length ≤ i → i ≤ k →
        (runCalls (Call.first :: List.replicate k Call.next) p).1[i]? = some none) ∧
      (runCalls (Call.first :: List.replicate k Call.next) p).2.latestSearchResults =
        p.latestSearchResults ∧
      (∀ k2 : Nat,
        (runCalls ((Call.first :: List.replicate k Call.next) ++
            (Call.first :: List.replicate k2 Call.next)) p).1 =
          (List.range (k + 1)).map (fun i => p.latestSearchResults[i]?) ++
            (List.range (k2 + 1)).map (fun i => p.latestSearchResults[i]?)) := by
  have hrun := runCalls_first_nexts p k
  refine ⟨by rw [hrun], ?_, ?_, by rw [hrun], ?_⟩
  · intro i h hik
    rw [hrun]
    simp only [List.getElem?_map]
    rw [List.getElem?_range (by omega)]
    simp [List.getElem?_eq_getElem h]
  · intro i h hik
    rw [hrun]
    simp only [List.getElem?_map]
    rw [List.getElem?_range (by omega)]
    simp [List.getElem?_eq_none h]
  · intro k2
    rw [runCalls_append, hrun, runCalls_first_nexts]

/-- C9 as stated fails: from the initial state (empty sequence, position 0)
one `next()` gives position 1, above the length 0, and a second `next()` on
the exhausted cursor moves the position on to 2. -/
theorem cursor_range_counterexample :
    Reachable (next (Provider.init : Provider Unit)).2 ∧
      (next (Provider.init : Provider Unit)).2.currentResultIndex = 1 ∧
      (next (Provider.init : Provider Unit)).2.latestSearchResults.length = 0 ∧
      (next (Provider.init : Provider Unit)).1 = none ∧
      (next (next (Provider.init : Provider Unit)).2).1 = none ∧
      (next (next (Provider.init : Provider Unit)).2).2.currentResultIndex = 2 :=
  ⟨Reachable.afterNext Reachable.init, by decide, by decide, by decide, by decide, by decide⟩

/-- C9 amended: in every reachable state the cursor position is at least `-1`;
`next()` always moves it one further, and at or past the end of the retained
sequence it returns the exhausted signal. -/
theorem cursor_lower_bound {M : Type} (p : Provider M) (h : Reachable p) :
    -1 ≤ p.currentResultIndex ∧
      (next p).2.currentResultIndex = p.currentResultIndex + 1 ∧
      ((p.latestSearchResults.length : Int) ≤ p.currentResultIndex → (next p).1 = none) := by
  have h0 := reachable_index_nonneg h
  have hn : next p = (p.latestSearchResults[(p.currentResultIndex + 1).toNat]?,
      { latestSearchResults := p.latestSearchResults,
        currentResultIndex := p.currentResultIndex + 1 }) :=
    next_eq p.latestSearchResults p.currentResultIndex (by omega)
  refine ⟨by omega, by rw [hn], fun hlen => ?_⟩
  rw [hn]
  exact List.getElem?_eq_none (by omega)

/-- C9 amended, at the state reached by one `next()` from the initial state. -/
theorem cursor_lower_bound_witness :
    -1 ≤ (next (Provider.init : Provider Unit)).2.currentResultIndex ∧
      (next (next (Provider.init : Provider Unit)).2).2.currentResultIndex =
        (next (Provider.init : Provider Unit)).2.currentResultIndex + 1 ∧
      (next (next (Provider.init : Provider Unit)).2).1 = none :=
  have h := cursor_lower_bound (next (Provider.init : Provider Unit)).2
    (Reachable.afterNext Reachable.init)
  ⟨h.1, h.2.1, h.2.2 (by decide)⟩

/-- C10 as stated fails: for `maxResults = -5` the size parameter of the
request is `-5`, neither the default 100 nor a positive integer. -/
theorem esQuery_negative_counterexample :
    effectiveMaxResults (some (-5)) = -5 ∧
      ¬ (0 < effectiveMaxResults (some (-5))) ∧
      esQuery "http://es".toList "type:foo".toList (some (-5)) none =
        "http://es/_search/?q=type:foo&size=-5".toList := by
  refine ⟨by decide, by decide, ?_⟩
  simp only [esQuery]
  rw [processSearchTerm_eq]
  decide

/-- C10 amended: when `maxResults` is absent or zero the size parameter is the
default 100 (the request is the one built for `maxResults = 100`); any other
integer is used as it is; so the size parameter is positive whenever
`maxResults` is absent or a non-negative integer. -/
theorem esQuery_size (ROOT inputValue : JStr) (timeout maxResults : Option Int) :
    ((maxResults = none ∨ maxResults = some 0) →
        effectiveMaxResults maxResults = 100 ∧
        esQuery ROOT inputValue maxResults timeout =
          esQuery ROOT inputValue (some 100) timeout) ∧
      (∀ n : Int, maxResults = some n → n ≠ 0 → effectiveMaxResults maxResults = n) ∧
      ((maxResults = none ∨ ∃ n : Int, maxResults = some n ∧ 0 ≤ n) →
        0 < effectiveMaxResults maxResults) ∧
      esQuery ROOT inputValue maxResults none =
        ROOT ++ "/_search/?q=".toList ++ processSearchTerm inputValue ++ "&size=".toList
          ++ numberToString (effectiveMaxResults maxResults) := by
  refine ⟨?_, ?_, ?_, rfl⟩
  · intro h
    have he : effectiveMaxResults maxResults = 100 := by
      rcases h with h | h <;> subst h <;> rfl
    refine ⟨he, ?_⟩
    have he2 : effectiveMaxResults (some 100) = 100 := rfl
    simp only [esQuery, he, he2]
  · intro n hn hne
    subst hn
    simp [effectiveMaxResults, hne]
  · intro h
    rcases h with h | ⟨n, h, hn⟩
    · subst h; decide
    · subst h
      simp only [effectiveMaxResults]
      split
      · decide
      · omega

/-- C10 amended, at an absent and at a zero `maxResults`. -/
theorem esQuery_size_witness :
    effectiveMaxResults none = 100 ∧ effectiveMaxResults (some 0) = 100 ∧
      0 < effectiveMaxResults (some 7) ∧
      esQuery "http://es".toList "cat".toList (some 0) (some 30) =
        esQuery "http://es".toList "cat".toList (some 100) (some 30) :=
  ⟨((esQuery_size [] [] none none).1 (Or.inl rfl)).1,
    ((esQuery_size [] [] none (some 0)).1 (Or.inr rfl)).1,
    (esQuery_size [] [] none (some 7)).2.2.1 (Or.inr ⟨7, rfl, by decide⟩),
    ((esQuery_size "http://es".toList "cat".toList (some 30) (some 0)).1 (Or.inr rfl)).2⟩

/-- C11: the request URL is `ROOT + "/_search/?q=" + processSearchTerm(term) +
"&size=" + maxResults` with the effective `maxResults`, followed by
`"&timeout=" + timeout` when the timeout is supplied and non-zero, and by
nothing when it is absent or zero. -/
theorem esQuery_url (ROOT inputValue : JStr) (maxResults timeout : Option Int) :
    ((timeout = none ∨ timeout = some 0) →
        esQuery ROOT inputValue maxResults timeout =
          ROOT ++ "/_search/?q=".toList ++ processSearchTerm inputValue ++ "&size=".toList
            ++ numberToString (effectiveMaxResults maxResults)) ∧
      (∀ t : Int, timeout = some t → t ≠ 0 →
        esQuery ROOT inputValue maxResults timeout =
          ROOT ++ "/_search/?q=".toList ++ processSearchTerm inputValue ++ "&size=".toList
            ++ numberToString (effectiveMaxResults maxResults)
            ++ "&timeout=".toList ++ numberToString t) := by
  constructor
  · intro h
    rcases h with h | h <;> subst h <;> simp [esQuery]
  · intro t ht hne
    subst ht
    simp [esQuery, hne]

/-- C11 at `ROOT = "http://es"`, term `type:foo`, `maxResults = 20`: with
timeout 500 and with timeout 0. -/
theorem esQuery_url_witness :
    esQuery "http://es".toList "type:foo".toList (some 20) (some 500) =
        "http://es/_search/?q=type:foo&size=20&timeout=500".toList ∧
      esQuery "http://es".toList "type:foo".toList (some 20) (some 0) =
        "http://es/_search/?q=type:foo&size=20".toList := by
  constructor
  · rw [(esQuery_url "http://es".toList "type:foo".toList (some 20) (some 500)).2 500 rfl
      (by decide), processSearchTerm_eq]
    decide
  · rw [(esQuery_url "http://es".toList "type:foo".toList (some 20) (some 0)).1 (Or.inr rfl),
      processSearchTerm_eq]
    decide

/-- C12 (the code at a repeated identifier): for the hits `a` (score 9), `b`
(score 5), `a` (score 1), all resolvable and accepted, the record produced for
the hit at position 0 carries score 1, the score of the later hit with the
same identifier, not its own score 9. -/
theorem processResults_repeated_id_score :
    processResults dupHits (fun _ => true) bothAB =
        .ok [{ id := "a".toList, object := ⟨1, some ()⟩, score := some 1, next := CursorOp.next },
          { id := "b".toList, object := ⟨2, some ()⟩, score := some 5, next := CursorOp.next },
          { id := "a".toList, object := ⟨1, some ()⟩, score := some 1, next := CursorOp.next }] ∧
      (dupHits.hits.map (fun hit => hit.score))[0]? = some 9 := by
  refine ⟨by rfl, by decide⟩

/-- C13 (the code at a repeated identifier): the hits of `dupHits` arrive with
scores 9, 5, 1, non-increasing, and the scores of the resolved sequence are
1, 5, 1, which is not non-increasing. -/
theorem processResults_scores_not_sorted :
    (dupHits.hits.map (fun hit => hit.score)).Pairwise (fun x y => y ≤ x) ∧
      ∃ rs, processResults dupHits (fun _ => true) bothAB = .ok rs ∧
        rs.map (fun r => r.score) = [some 1, some 5, some 1] ∧
        ¬ (rs.map (fun r => r.score)).Pairwise
          (fun x y => ∃ a b : Score, x = some a ∧ y = some b ∧ b ≤ a) := by
  refine ⟨by decide,
    [{ id := "a".toList, object := ⟨1, some ()⟩, score := some 1, next := CursorOp.next },
      { id := "b".toList, object := ⟨2, some ()⟩, score := some 5, next := CursorOp.next },
      { id := "a".toList, object := ⟨1, some ()⟩, score := some 1, next := CursorOp.next }],
    by rfl, by rfl, ?_⟩
  intro h
  change List.Pairwise _ [some 1, some 5, some 1] at h
  obtain ⟨a, b, ha, hb, hab⟩ := (List.pairwise_cons.mp h).1 (some 5) (by simp)
  have ha1 : a = 1 := (Option.some.inj ha).symm
  have hb5 : b = 5 := (Option.some.inj hb).symm
  rw [ha1, hb5] at hab
  exact absurd hab (by decide)

/-- C14: when the claimed total exceeds the number of hit records, the notice
is raised and decoding takes every hit record present: the identifiers are
those of the hit records in order, and every identifier gets the score of the
last hit record carrying it. The resolved sequence is the one obtained from
the same hit records with the total equal to their count: with an entry for
every identifier it is the sequence of the records called for hit by hit, and
with a missing entry both resolutions throw. -/
theorem processResults_truncated {M : Type} (rawResults : RawResults) (validType : M → Bool)
    (objects : JStr → Option (DomainObject M))
    (h : rawResults.total > (rawResults.hits.length : Int)) :
    (processResultsStart rawResults validType).notice = true ∧
      (processResultsStart rawResults validType).ids =
        rawResults.hits.map (fun hit => hit.id) ∧
      (∀ id, (processResultsStart rawResults validType).scores id =
        lastScore rawResults.hits id) ∧
      (∀ hit ∈ rawResults.hits, ∃ hit2 ∈ rawResults.hits, hit2.id = hit.id ∧
        (processResultsStart rawResults validType).scores hit.id = some hit2.score) ∧
      processResults rawResults validType objects =
        processResults { total := (rawResults.hits.length : Int), hits := rawResults.hits }
          validType objects ∧
      ((∀ hit ∈ rawResults.hits, (objects hit.id).isSome = true) →
        processResults rawResults validType objects =
          .ok (rawResults.hits.filterMap (recordFor rawResults.hits validType objects))) ∧
      ((∃ hit ∈ rawResults.hits, objects hit.id = none) →
        processResults rawResults validType objects = .error JsError.typeError) := by
  refine ⟨by simpa [processResultsStart] using h, rfl,
    processResultsStart_scores rawResults validType, ?_, ?_, fun hall => ?_, fun hex => ?_⟩
  · intro hit hmem
    rw [processResultsStart_scores, lastScore]
    cases hf : rawResults.hits.reverse.find? (fun x => decide (x.id = hit.id)) with
    | none =>
      have hnone := List.find?_eq_none.mp hf hit (List.mem_reverse.mpr hmem)
      simp at hnone
    | some hit2 =>
      refine ⟨hit2, List.mem_reverse.mp (List.mem_of_find?_eq_some hf), ?_, rfl⟩
      simpa using List.find?_some hf
  · exact filterLoop_congr objects (processResultsStart rawResults validType)
      (processResultsStart { total := (rawResults.hits.length : Int), hits := rawResults.hits }
        validType) rfl rfl _ []
  · have h2 : ∀ id ∈ (processResultsStart rawResults validType).ids,
        (objects id).isSome = true := by
      intro id hid
      simp only [processResultsStart, List.mem_map] at hid
      obtain ⟨hit, hmem, rfl⟩ := hid
      exact hall hit hmem
    have h3 := filterLoop_eq_filterMap objects (processResultsStart rawResults validType)
      (processResultsStart rawResults validType).ids [] h2
    rw [processResults, h3, List.nil_append]
    have hids : (processResultsStart rawResults validType).ids =
        rawResults.hits.map (fun hit => hit.id) := rfl
    rw [hids, List.filterMap_map]
    congr 1
    apply List.filterMap_congr
    intro hit _
    simp only [Function.comp, recordFor, processResultsStart_scores]
    rfl
  · obtain ⟨hit, hmem, hnone⟩ := hex
    exact filterLoop_error objects (processResultsStart rawResults validType) _ []
      ⟨hit.id, List.mem_map.mpr ⟨hit, hmem, rfl⟩, hnone⟩

/-- C14 at a response of 10 hits that claims a total of 50, every identifier
resolvable and accepted: the notice is raised and the resolved sequence holds
10 records, one per hit, each with the identifier and score of its hit. -/
theorem processResults_truncated_witness :
    (processResultsStart tenHits (fun _ : Unit => true)).notice = true ∧
      tenHits.hits.length = 10 ∧
      ∃ rs, processResults tenHits (fun _ : Unit => true) everyObject = .ok rs ∧
        rs.length = 10 ∧
        rs.map (fun r => (r.id, r.score)) =
          tenHits.hits.map (fun hit => (hit.id, some hit.score)) := by
  have h := processResults_truncated tenHits (fun _ : Unit => true) everyObject (by decide)
  refine ⟨h.1, by decide, _, h.2.2.2.2.2.1 (by decide), by decide, by decide⟩

/-- C15: for every input, the result of `processSearchTerm` neither begins
nor ends with a space; for a term with a selector the result is the term
with the whole run of spaces removed at either end. -/
theorem processSearchTerm_no_end_space (s : JStr) :
    (processSearchTerm s).head? ≠ some space ∧
      (processSearchTerm s).getLast? ≠ some space ∧
      processSearchTerm "   type:a b  ".toList = "type:a b".toList ∧
      processSearchTerm "  a  ".toList = "name:a~".toList := by
  refine ⟨processSearchTerm_head s, processSearchTerm_getLast s, ?_, ?_⟩
  · rw [processSearchTerm_eq]; decide
  · rw [processSearchTerm_eq]; decide

/-- C16: when the resolution of a response completes with the sequence `rs`,
the retained sequence afterwards is exactly `rs`, whatever was retained
before; so after two searches, run one after the other or with their handlers
overlapping, the retained sequence is the result of the one whose resolution
completed last. -/
theorem processResultsDone_replaces {M : Type} (p : Provider M) (rawResults : RawResults)
    (validType : M → Bool) (objects : JStr → Option (DomainObject M))
    (rs : List (SearchResult M))
    (h : processResults rawResults validType objects = .ok rs) :
    (processResultsDone p (processResultsStart rawResults validType)
        objects).2.latestSearchResults = rs ∧
      (search p rawResults validType objects).2.latestSearchResults = rs ∧
      (∀ (raw1 : RawResults) (vt1 : M → Bool) (objects1 : JStr → Option (DomainObject M)),
        (search (search p raw1 vt1 objects1).2 rawResults validType
            objects).2.latestSearchResults = rs ∧
        (processResultsDone
            (processResultsDone
              (onHttpResponse (onHttpResponse p raw1 vt1).2.1 rawResults validType).2.1
              (processResultsStart raw1 vt1) objects1).2
            (processResultsStart rawResults validType) objects).2.latestSearchResults = rs) := by
  have key : ∀ q : Provider M,
      (processResultsDone q (processResultsStart rawResults validType)
        objects).2.latestSearchResults = rs := by
    intro q
    have h2 : filterLoop objects (processResultsStart rawResults validType)
        (processResultsStart rawResults validType).ids [] = .ok rs := h
    simp only [processResultsDone, h2]
  refine ⟨key p, key _, fun raw1 vt1 objects1 => ⟨key _, key _⟩⟩

/-- C16 at two searches from the initial state: first the response `twoHits`,
then an empty response; the retained sequence ends up empty. -/
theorem processResultsDone_replaces_witness :
    (search (search (Provider.init : Provider Unit) twoHits (fun _ => true) bothAB).2
        { total := 0, hits := [] } (fun _ => true) bothAB).2.latestSearchResults = [] :=
  ((processResultsDone_replaces (Provider.init : Provider Unit) { total := 0, hits := [] }
    (fun _ => true) bothAB [] (by rfl)).2.2 twoHits (fun _ => true) bothAB).1

/-- C17: from a position `p ≥ -1`, `next()` moves the position to `p + 1`,
returns the element at index `p + 1` when `p + 1 < n` and the exhausted
signal when `p + 1 ≥ n`, and agrees in value and state with the step that
tests `p + 1 ≥ n` instead of `p + 1 > n`. -/
theorem next_eq_nextClean {M : Type} (p : Provider M) (h : -1 ≤ p.currentResultIndex) :
    next p = nextClean p ∧
      (next p).2.currentResultIndex = p.currentResultIndex + 1 ∧
      (next p).2.latestSearchResults = p.latestSearchResults ∧
      (∀ hlt : (p.currentResultIndex + 1).toNat < p.latestSearchResults.length,
        (next p).1 = some (p.latestSearchResults.get ⟨(p.currentResultIndex + 1).toNat, hlt⟩)) ∧
      ((p.latestSearchResults.length : Int) ≤ p.currentResultIndex + 1 →
        (next p).1 = none) := by
  have hn : next p = (p.latestSearchResults[(p.currentResultIndex + 1).toNat]?,
      { latestSearchResults := p.latestSearchResults,
        currentResultIndex := p.currentResultIndex + 1 }) :=
    next_eq p.latestSearchResults p.currentResultIndex h
  refine ⟨?_, by rw [hn], by rw [hn], fun hlt => ?_, fun hge => ?_⟩
  · rw [hn]
    simp only [nextClean]
    by_cases hc : p.currentResultIndex + 1 ≥ (p.latestSearchResults.length : Int)
    · rw [if_pos hc, List.getElem?_eq_none (by omega)]
    · rw [if_neg hc, arrayGet, if_neg (by omega)]
  · rw [hn]
    exact List.getElem?_eq_getElem hlt
  · rw [hn]
    exact List.getElem?_eq_none (by omega)

/-- C17 at the boundary: two records retained and position 1, so that the
incremented position equals the length. -/
theorem next_eq_nextClean_witness :
    next onLastRecord = nextClean onLastRecord ∧ (next onLastRecord).1 = none :=
  have h := next_eq_nextClean onLastRecord (by decide)
  ⟨h.1, h.2.2.2.2 (by decide)⟩

/-- C18 as stated fails: for the term `a  b`, with two spaces between the
words, the result is `name:a~ ~ b~`, whose middle token is exactly `~`; and
for a term of one space the result is `name:~`. -/
theorem processSearchTerm_standalone_marker_counterexample :
    processSearchTerm "a  b".toList = "name:a~ ~ b~".toList ∧
      isDefaultFormat (trimSpaces "a  b".toList) = true ∧
      [tilde] ∈ split space ((processSearchTerm "a  b".toList).drop 5) ∧
      processSearchTerm " ".toList = "name:~".toList ∧
      [tilde] ∈ split space ((processSearchTerm " ".toList).drop 5) := by
  rw [processSearchTerm_eq, processSearchTerm_eq]; decide

/-- C18 amended: for a term in default format whose space-trimmed form is
non-empty and has no two consecutive spaces, the result is `name:` followed
by the marked pieces of the trimmed term, and none of its space-separated
tokens after `name:` is exactly `~`. -/
theorem processSearchTerm_no_standalone_marker (s : JStr)
    (hname : ¬ "name:".toList <:+: trimSpaces s)
    (htype : ¬ "type:".toList <:+: trimSpaces s)
    (hne : trimSpaces s ≠ [])
    (hsp : ¬ [space, space] <:+: trimSpaces s) :
    split space ((processSearchTerm s).drop 5) = (split space (trimSpaces s)).map markToken ∧
      ∀ tok ∈ split space ((processSearchTerm s).drop 5), tok ≠ [tilde] := by
  have hout : processSearchTerm s =
      "name:".toList ++ join [space] ((split space (trimSpaces s)).map markToken) := by
    rw [processSearchTerm_eq, if_pos ((isDefaultFormat_iff _).mpr ⟨hname, htype⟩),
      addFuzziness_none_eq]
  have htok : split space ((processSearchTerm s).drop 5) =
      (split space (trimSpaces s)).map markToken := by
    rw [hout, List.drop_left' (by decide), split_join_markToken]
  refine ⟨htok, ?_⟩
  intro tok hmem
  rw [htok] at hmem
  obtain ⟨x, hx, rfl⟩ := List.mem_map.mp hmem
  intro heq
  exact split_ne_nil_pieces space (trimSpaces s) hne (trimSpaces_head s)
    (trimSpaces_getLast s) hsp x hx (markToken_eq_tilde x heq)

/-- C18 amended, at the term `  cat dog `. -/
theorem processSearchTerm_no_standalone_marker_witness :
    split space ((processSearchTerm "  cat dog ".toList).drop 5) =
        ["cat~".toList, "dog~".toList] ∧
      [tilde] ∉ split space ((processSearchTerm "  cat dog ".toList).drop 5) := by
  have h := processSearchTerm_no_standalone_marker "  cat dog ".toList
    (by rw [← includes_eq_false_iff]; decide) (by rw [← includes_eq_false_iff]; decide)
    (by decide) (by rw [← includes_eq_false_iff]; decide)
  refine ⟨h.1.trans (by decide), fun hmem => h.2 _ hmem rfl⟩

/-- C19: `processSearchTerm` is idempotent: applied to its own result it
returns that result. -/
theorem processSearchTerm_idempotent (s : JStr) :
    processSearchTerm (processSearchTerm s) = processSearchTerm s := by
  rw [processSearchTerm_of_selector (processSearchTerm s) (processSearchTerm_has_selector s)]
  exact trimSpaces_of_no_end_space _ (processSearchTerm_head s) (processSearchTerm_getLast s)

/-- C20: both trimming loops end: run with a bound of `length + 1` evaluations
of the condition they return the value of the loop; the condition is false on
the empty string; an iteration shortens the string by one character; and
`processSearchTerm` returns the string computed from the outcome of the two
loops. -/
theorem trimming_loops_terminate (s : JStr) :
    loopFront (s.length + 1) s = some (shaveFront s) ∧
      loopBack ((shaveFront s).length + 1) (shaveFront s) = some (shaveBack (shaveFront s)) ∧
      substr [] 0 1 ≠ [space] ∧
      substr [] (((([] : JStr).length : Nat) : Int) - 1) 1 ≠ [space] ∧
      (substr s 0 1 = [space] → (substring s 1 (s.length : Nat)).length + 1 = s.length) ∧
      (substr s ((s.length : Int) - 1) 1 = [space] →
        (substring s 0 ((s.length : Int) - 1)).length + 1 = s.length) ∧
      (∃ t u, loopFront (s.length + 1) s = some t ∧ loopBack (s.length + 1) t = some u ∧
        processSearchTerm s =
          if isDefaultFormat u then "name:".toList ++ addFuzziness u none else u) := by
  refine ⟨loopFront_eq _ s (by omega), loopBack_eq _ _ (by omega), by simp [substr],
    by simp [substr], ?_, ?_, ?_⟩
  · intro h
    cases s with
    | nil => simp [substr] at h
    | cons c t => rw [substring_one_length_cons]; simp
  · intro h
    induction s using List.reverseRecOn with
    | nil => simp [substr] at h
    | append_singleton t c _ => rw [substring_init_snoc]; simp
  · refine ⟨shaveFront s, shaveBack (shaveFront s), loopFront_eq _ s (by omega),
      loopBack_eq _ _ ?_, rfl⟩
    have := shaveFront_length_le s
    omega

end ElasticsearchSearchProvider
